import Mathlib

/-!
Verification development for the nmt-keras repository (source files
`main.py` and `data_engine/prepare_data.py`).

The Python code is shallowly embedded:
  * Python dictionaries are association lists (`lookupT` models `d[k]`
    raising `KeyError` as `none`; `setT` models `d[k] = v`).
  * Python list indexing `xs[i]` is `xs[i]?` (`none` models `IndexError`).
  * A function that may raise an uncaught exception returns `Option`
    (`none` means an exception propagates to the caller).
  * Python 2 `range(0, stop, step)` is `pyRange` (`none` models the
    `ValueError` raised for `step = 0`).
-/

/-- Association-list lookup, modelling Python dictionary access `d[k]`:
`none` models a `KeyError`. -/
def lookupT {β : Type} : List (String × β) → String → Option β
  | [], _ => none
  | (k, v) :: rest, key => if k = key then some v else lookupT rest key

/-- Association-list update, modelling Python dictionary assignment
`d[k] = v` (update the existing binding, else append a new one). -/
def setT {β : Type} : List (String × β) → String → β → List (String × β)
  | [], key, v => [(key, v)]
  | (k, w) :: rest, key, v =>
      if k = key then (k, v) :: rest else (k, w) :: setT rest key v

/-- Python 2 `range(0, stop, step)`: the list `[0, step, 2*step, ...]` of
all multiples of `step` below `stop`; `none` models the `ValueError`
raised when `step = 0`. -/
def pyRange (stop step : Nat) : Option (List Nat) :=
  if step = 0 then none
  else some ((List.range ((stop + step - 1) / step)).map (fun k => k * step))

/-- Effectful map over a list, aborting at the first failure: models a
Python loop that appends `f a` for each element and lets an exception
raised by `f` propagate. -/
def mapOpt {α β : Type} (f : α → Option β) : List α → Option (List β)
  | [] => some []
  | a :: rest => (f a).bind fun b => (mapOpt f rest).map fun bs => b :: bs

/-- The list built for an input id inside `keep_n_captions`
(`prepare_data.py` lines 293-296 and 300-303):
`for i in range(0, n_samples, repeat): for j in range(n): new_X.append(X[id_in][i + j])`. -/
def reshapeX {α : Type} (xs : List α) (n_samples rep n : Nat) : Option (List α) :=
  (pyRange n_samples rep).bind fun idxs =>
    (mapOpt (fun i => mapOpt (fun j => xs[i + j]?) (List.range n)) idxs).map List.flatten

/-- The per-sample groups stored by `keep_n_captions` in `dict_Y`
(`prepare_data.py` lines 310-317): group `count_samples` collects
`Y[id_out][i + j]` for every `j in range(repeat)`.  The Python dictionary
`dict_Y` has exactly the consecutive keys `0, 1, ...`, so it is modelled
as the list of its values in key order. -/
def reshapeYfull {α : Type} (ys : List α) (n_samples rep : Nat) : Option (List (List α)) :=
  (pyRange n_samples rep).bind fun idxs =>
    mapOpt (fun i => mapOpt (fun j => ys[i + j]?) (List.range rep)) idxs

/-- The kept output list `new_Y` built by `keep_n_captions`
(`prepare_data.py` lines 311-315): inside the same loops as
`reshapeYfull`, only the entries with `j < n` are appended to `new_Y`. -/
def reshapeYkept {α : Type} (ys : List α) (n_samples rep n : Nat) : Option (List α) :=
  (pyRange n_samples rep).bind fun idxs =>
    (mapOpt (fun i =>
        mapOpt (fun j => ys[i + j]?) ((List.range rep).filter (fun j => decide (j < n))))
      idxs).map List.flatten

/-- Per-split state of a wrapper `Dataset`: the attributes `len_s`,
`X_s` and `Y_s` (the wrapper's constructor creates the three together
for each split, so they are bundled; a split for which they were never
created is simply absent from `Dataset.splits`). -/
structure SplitData (α : Type) where
  len : Nat
  X : List (String × List α)
  Y : List (String × List α)
deriving Repr, DecidableEq

/-- The value stored at `ds.extra_variables[s]`: a table mapping each
output id to the per-sample groups (`dict_Y`). -/
abbrev ExtraTable (α : Type) := List (String × List (List α))

/-- The parts of a wrapper `Dataset` object read or written by
`keep_n_captions`. -/
structure Dataset (α : Type) where
  ids_inputs : List String
  optional_inputs : List String
  ids_outputs : List String
  splits : List (String × SplitData α)
  extra_variables : List (String × ExtraTable α)
deriving Repr, DecidableEq

/-- The input loop of `keep_n_captions` (`prepare_data.py` lines 288-304):
for each input id, rebuild its list; for an id in `ds.optional_inputs`
any exception is swallowed (`except Exception: pass`) and the table entry
is left unchanged, while for any other id the exception propagates. -/
def processInputs {α : Type} (oi : List String) (len rep n : Nat) :
    List String → List (String × List α) → Option (List (String × List α))
  | [], X => some X
  | id_in :: rest, X =>
      match (lookupT X id_in).bind (fun xs => reshapeX xs len rep n) with
      | some nx => processInputs oi len rep n rest (setT X id_in nx)
      | none => if id_in ∈ oi then processInputs oi len rep n rest X else none

/-- The output loop of `keep_n_captions` (`prepare_data.py` lines 305-320):
for each output id, store the kept list back into `Y` and the full groups
into the extra table; the accumulator also carries the most recent
`new_Y` (whose length becomes the new split length). -/
def processOutputs {α : Type} (len rep n : Nat) :
    List String → List (String × List α) → ExtraTable α → Option (List α) →
      Option (List (String × List α) × ExtraTable α × Option (List α))
  | [], Y, ex, last => some (Y, ex, last)
  | id_out :: rest, Y, ex, _ =>
      match lookupT Y id_out with
      | none => none
      | some ys =>
          match reshapeYfull ys len rep, reshapeYkept ys len rep n with
          | some groups, some kept =>
              processOutputs len rep n rest (setT Y id_out kept)
                (setT ex id_out groups) (some kept)
          | _, _ => none

/-- Processing of one split inside `keep_n_captions`: process the inputs,
then the outputs, then set the split length to `len(new_Y)` of the last
output (`prepare_data.py` lines 322-323; if there is no output id,
`new_Y` is an unbound name and the Python code raises `NameError`,
modelled by the `none` branch). -/
def processSplit {α : Type} (ii oi io : List String) (rep n : Nat) (sd : SplitData α) :
    Option (SplitData α × ExtraTable α) :=
  (processInputs oi sd.len rep n ii sd.X).bind fun X1 =>
    (processOutputs sd.len rep n io sd.Y [] none).bind fun r =>
      match r with
      | (Y1, ex1, some kept) => some ({ len := kept.length, X := X1, Y := Y1 }, ex1)
      | (_, _, none) => none

/-- `keep_n_captions(ds, repeat, n, set_names)` from
`data_engine/prepare_data.py` lines 265-324.  In the Python code
`set_names` defaults to `['val', 'test']` when `None`; every call in this
repository passes an explicit list, so the resolved list is taken as the
argument.  `none` models an uncaught exception. -/
def keep_n_captions {α : Type} (ds : Dataset α) (rep n : Nat)
    (set_names : List String) : Option (Dataset α) :=
  match set_names with
  | [] => some ds
  | s :: rest =>
      match lookupT ds.splits s with
      | none => none
      | some sd =>
          match processSplit ds.ids_inputs ds.optional_inputs ds.ids_outputs rep n sd with
          | none => none
          | some (sd1, ex) =>
              keep_n_captions
                { ds with splits := setT ds.splits s sd1,
                          extra_variables := setT ds.extra_variables s ex }
                rep n rest

/-- The dataset of the worked example in the spec: one output id whose
`val` list is `[a1, a2, a3, b1, b2, b3]`. -/
def dsExample : Dataset String :=
  { ids_inputs := []
    optional_inputs := []
    ids_outputs := ["target_text"]
    splits := [("val", { len := 6, X := [],
                         Y := [("target_text", ["a1", "a2", "a3", "b1", "b2", "b3"])] })]
    extra_variables := [] }

/-- Looking up the key just set yields the new value. -/
lemma lookupT_setT_self {β : Type} (t : List (String × β)) (k : String) (v : β) :
    lookupT (setT t k v) k = some v := by
  induction t with
  | nil => simp [setT, lookupT]
  | cons p rest ih =>
      obtain ⟨k0, w⟩ := p
      by_cases h : k0 = k <;> simp [setT, lookupT, h, ih]

/-- Setting one key leaves every other key unchanged. -/
lemma lookupT_setT_ne {β : Type} (t : List (String × β)) (k k' : String) (v : β)
    (h : k ≠ k') : lookupT (setT t k v) k' = lookupT t k' := by
  induction t with
  | nil => simp [setT, lookupT, h]
  | cons p rest ih =>
      obtain ⟨k0, w⟩ := p
      by_cases h0 : k0 = k
      · subst h0; simp [setT, lookupT, h]
      · simp [setT, lookupT, h0, ih]

/-- Decomposition of `mapOpt` on a cons cell. -/
lemma mapOpt_cons_some {α β : Type} {f : α → Option β} {a : α} {l : List α}
    {bs : List β} (h : mapOpt f (a :: l) = some bs) :
    ∃ b bs2, f a = some b ∧ mapOpt f l = some bs2 ∧ bs = b :: bs2 := by
  cases hfa : f a with
  | none => simp [mapOpt, hfa] at h
  | some b =>
      cases hml : mapOpt f l with
      | none => simp [mapOpt, hfa, hml] at h
      | some bs2 =>
          simp [mapOpt, hfa, hml] at h
          exact ⟨b, bs2, rfl, rfl, h.symm⟩

/-- A successful `mapOpt` preserves length. -/
lemma mapOpt_length {α β : Type} {f : α → Option β} :
    ∀ {l : List α} {bs : List β}, mapOpt f l = some bs → bs.length = l.length := by
  intro l
  induction l with
  | nil => intro bs h; simp [mapOpt] at h; simp [← h]
  | cons a rest ih =>
      intro bs h
      obtain ⟨b, bs2, _, h2, rfl⟩ := mapOpt_cons_some h
      simp [ih h2]

/-- A successful `mapOpt` maps the element at each index. -/
lemma mapOpt_idx {α β : Type} {f : α → Option β} :
    ∀ {l : List α} {bs : List β}, mapOpt f l = some bs →
      ∀ (i : Nat) (a : α), l[i]? = some a → ∃ b, bs[i]? = some b ∧ f a = some b := by
  intro l
  induction l with
  | nil => intro bs _ i a ha; simp at ha
  | cons a0 rest ih =>
      intro bs h i a ha
      obtain ⟨b0, bs2, hf, h2, rfl⟩ := mapOpt_cons_some h
      cases i with
      | zero => simp at ha; subst ha; exact ⟨b0, by simp, hf⟩
      | succ i =>
          simp at ha
          obtain ⟨b, hb, hfb⟩ := ih h2 i a ha
          exact ⟨b, by simpa using hb, hfb⟩

/-- Every element of a successful `mapOpt` result comes from some source
element. -/
lemma mapOpt_mem {α β : Type} {f : α → Option β} :
    ∀ {l : List α} {bs : List β}, mapOpt f l = some bs →
      ∀ b ∈ bs, ∃ a ∈ l, f a = some b := by
  intro l
  induction l with
  | nil => intro bs h b hb; simp [mapOpt] at h; subst h; simp at hb
  | cons a0 rest ih =>
      intro bs h b hb
      obtain ⟨b0, bs2, hf, h2, rfl⟩ := mapOpt_cons_some h
      rcases List.mem_cons.mp hb with rfl | hb2
      · exact ⟨a0, by simp, hf⟩
      · obtain ⟨a, ha, hfa⟩ := ih h2 b hb2
        exact ⟨a, by simp [ha], hfa⟩

/-- Fusing `mapOpt` with a pure `map`. -/
lemma mapOpt_map {α β γ : Type} (f : β → Option γ) (g : α → β) (l : List α) :
    mapOpt f (l.map g) = mapOpt (fun a => f (g a)) l := by
  induction l with
  | nil => rfl
  | cons a rest ih => simp [mapOpt, ih]

/-- On a positive multiple of the step, `pyRange` yields exactly the
group starting indices `0, r, ..., (len/r - 1)*r`. -/
lemma pyRange_dvd {len r : Nat} (hr : 1 ≤ r) (hd : r ∣ len) :
    pyRange len r = some ((List.range (len / r)).map (fun k => k * r)) := by
  obtain ⟨c, rfl⟩ := hd
  have hr0 : 0 < r := hr
  have h1 : (r * c + r - 1) / r = c := by
    rw [Nat.add_sub_assoc hr, Nat.mul_add_div hr0]
    simp [Nat.div_eq_of_lt (Nat.sub_lt hr0 one_pos)]
  have h2 : r * c / r = c := Nat.mul_div_cancel_left c hr0
  simp [pyRange, Nat.pos_iff_ne_zero.mp hr0, h1, h2]

/-- Filtering `range r` by `· < n` gives `range n` when `n ≤ r`. -/
lemma filter_range_lt : ∀ {r n : Nat}, n ≤ r →
    (List.range r).filter (fun j => decide (j < n)) = List.range n := by
  intro r
  induction r with
  | zero => intro n h; interval_cases n; simp
  | succ r ih =>
      intro n h
      rw [List.range_succ, List.filter_append]
      by_cases hn : n = r + 1
      · subst hn
        rw [List.filter_eq_self.mpr (fun a ha => by
          simp only [List.mem_range] at ha
          simpa using Nat.lt_succ_of_lt ha)]
        simp [List.range_succ]
      · have hnr : n ≤ r := by omega
        have hr : ¬ (r < n) := by omega
        rw [ih hnr]
        simp [List.filter, hr]

/-- Length of a flattened list of constant-length blocks. -/
lemma flatten_length_const {α : Type} {n : Nat} :
    ∀ {bs : List (List α)}, (∀ b ∈ bs, b.length = n) →
      bs.flatten.length = bs.length * n := by
  intro bs
  induction bs with
  | nil => intro _; simp
  | cons b rest ih =>
      intro h
      have hb : b.length = n := h b (by simp)
      have hr : ∀ x ∈ rest, x.length = n := fun x hx => h x (by simp [hx])
      simp [List.flatten, hb, ih hr, Nat.succ_mul, Nat.add_comm]

/-- Indexing into a flattened list of constant-length blocks. -/
lemma flatten_getElem_const {α : Type} {n : Nat} :
    ∀ {bs : List (List α)} {k j : Nat} {bk : List α},
      (∀ b ∈ bs, b.length = n) → j < n → bs[k]? = some bk →
      bs.flatten[k * n + j]? = bk[j]? := by
  intro bs
  induction bs with
  | nil => intro k j bk _ _ hk; simp at hk
  | cons b rest ih =>
      intro k j bk h hj hk
      have hb : b.length = n := h b (by simp)
      have hr : ∀ x ∈ rest, x.length = n := fun x hx => h x (by simp [hx])
      cases k with
      | zero =>
          simp at hk; subst hk
          have : j < b.length := by omega
          simp [List.flatten, List.getElem?_append, this]
      | succ k =>
          simp at hk
          have hlen : b.length ≤ (k + 1) * n + j := by
            rw [hb]; calc n ≤ (k + 1) * n := Nat.le_mul_of_pos_left n (Nat.succ_pos k)
              _ ≤ (k + 1) * n + j := Nat.le_add_right _ _
          rw [List.flatten_cons, List.getElem?_append_right hlen]
          have harith : (k + 1) * n + j - b.length = k * n + j := by
            rw [hb]; ring_nf; omega
          rw [harith]
          exact ih hr hj hk


/-- Shape of a successful `reshapeYkept`: on a positive multiple of the
repeat factor with `n ≤ r`, the kept list has `n` entries per group and
its entry `k*n + j` is the source entry `k*r + j` (the first `n` of each
consecutive group of `r`). -/
lemma reshapeYkept_some_spec {α : Type} {ys kept : List α} {len r n : Nat}
    (hr : 1 ≤ r) (hd : r ∣ len) (hn : n ≤ r)
    (hs : reshapeYkept ys len r n = some kept) :
    kept.length = n * (len / r) ∧
      ∀ k j, k < len / r → j < n → kept[k * n + j]? = ys[k * r + j]? := by
  unfold reshapeYkept at hs
  rw [pyRange_dvd hr hd] at hs
  simp only [filter_range_lt hn, Option.some_bind, mapOpt_map] at hs
  obtain ⟨bs, hbs, rfl⟩ := Option.map_eq_some'.mp hs
  have hblen : ∀ b ∈ bs, b.length = n := by
    intro b hb
    obtain ⟨a, _, hfa⟩ := mapOpt_mem hbs b hb
    rw [mapOpt_length hfa, List.length_range]
  constructor
  · rw [flatten_length_const hblen, mapOpt_length hbs, List.length_range,
      Nat.mul_comm]
  · intro k j hk hj
    obtain ⟨bk, hbk, hfk⟩ := mapOpt_idx hbs k k (List.getElem?_range hk)
    obtain ⟨v, hv, hyv⟩ := mapOpt_idx hfk j j (List.getElem?_range hj)
    rw [flatten_getElem_const hblen hj hbk, hv, hyv]

/-- Shape of a successful `reshapeYfull`: one group of `r` consecutive
source entries per sample index. -/
lemma reshapeYfull_some_spec {α : Type} {ys : List α} {groups : List (List α)}
    {len r : Nat} (hr : 1 ≤ r) (hd : r ∣ len)
    (hs : reshapeYfull ys len r = some groups) :
    groups.length = len / r ∧
      ∀ k, k < len / r → ∃ gk, groups[k]? = some gk ∧ gk.length = r ∧
        ∀ j, j < r → gk[j]? = ys[k * r + j]? := by
  unfold reshapeYfull at hs
  rw [pyRange_dvd hr hd] at hs
  simp only [Option.some_bind, mapOpt_map] at hs
  constructor
  · rw [mapOpt_length hs, List.length_range]
  · intro k hk
    obtain ⟨gk, hgk, hfk⟩ := mapOpt_idx hs k k (List.getElem?_range hk)
    refine ⟨gk, hgk, ?_, ?_⟩
    · rw [mapOpt_length hfk, List.length_range]
    · intro j hj
      obtain ⟨v, hv, hyv⟩ := mapOpt_idx hfk j j (List.getElem?_range hj)
      rw [hv, hyv]

/-- Length of a successful `reshapeX` on a positive multiple of the
repeat factor: `n` entries per group. -/
lemma reshapeX_some_length {α : Type} {xs nx : List α} {len r n : Nat}
    (hr : 1 ≤ r) (hd : r ∣ len)
    (hs : reshapeX xs len r n = some nx) :
    nx.length = n * (len / r) := by
  unfold reshapeX at hs
  rw [pyRange_dvd hr hd] at hs
  simp only [Option.some_bind, mapOpt_map] at hs
  obtain ⟨bs, hbs, rfl⟩ := Option.map_eq_some'.mp hs
  have hblen : ∀ b ∈ bs, b.length = n := by
    intro b hb
    obtain ⟨a, _, hfa⟩ := mapOpt_mem hbs b hb
    rw [mapOpt_length hfa, List.length_range]
  rw [flatten_length_const hblen, mapOpt_length hbs, List.length_range,
    Nat.mul_comm]

/-- Decomposition of one step of the output loop. -/
lemma processOutputs_cons_some {α : Type} {len r n : Nat} {id0 : String}
    {rest : List String} {Y : List (String × List α)} {ex : ExtraTable α}
    {last : Option (List α)} {out} (h : processOutputs len r n (id0 :: rest) Y ex last = some out) :
    ∃ ys groups kept, lookupT Y id0 = some ys ∧
      reshapeYfull ys len r = some groups ∧ reshapeYkept ys len r n = some kept ∧
      processOutputs len r n rest (setT Y id0 kept) (setT ex id0 groups) (some kept) = some out := by
  cases hys : lookupT Y id0 with
  | none => simp [processOutputs, hys] at h
  | some ys =>
      cases hg : reshapeYfull ys len r with
      | none => simp [processOutputs, hys, hg] at h
      | some groups =>
          cases hk : reshapeYkept ys len r n with
          | none => simp [processOutputs, hys, hg, hk] at h
          | some kept =>
              refine ⟨ys, groups, kept, rfl, hg, hk, ?_⟩
              simpa [processOutputs, hys, hg, hk] using h

/-- The output loop leaves ids it never visits untouched, in both the
output table and the extra table. -/
lemma processOutputs_frame {α : Type} {len r n : Nat} {id0 : String} :
    ∀ {ids : List String} {Y : List (String × List α)} {ex : ExtraTable α}
      {last : Option (List α)} {Y' ex' last'},
      processOutputs len r n ids Y ex last = some (Y', ex', last') →
      id0 ∉ ids → lookupT Y' id0 = lookupT Y id0 ∧ lookupT ex' id0 = lookupT ex id0 := by
  intro ids
  induction ids with
  | nil => intro Y ex last Y' ex' last' h _; simp [processOutputs] at h; simp [h]
  | cons a rest ih =>
      intro Y ex last Y' ex' last' h hmem
      obtain ⟨ys, groups, kept, hys, hg, hk, hrec⟩ := processOutputs_cons_some h
      have hne : a ≠ id0 := fun hc => hmem (hc ▸ List.mem_cons_self a rest)
      have hrest : id0 ∉ rest := fun hc => hmem (List.mem_cons_of_mem a hc)
      obtain ⟨h1, h2⟩ := ih hrec hrest
      rw [h1, h2, lookupT_setT_ne _ _ _ _ hne, lookupT_setT_ne _ _ _ _ hne]
      exact ⟨rfl, rfl⟩

/-- What the output loop does at each id it visits (ids assumed distinct,
as dataset output ids are): the kept list lands in the output table, the
full groups land in the extra table, and both reshapes succeeded on the
pre-loop list of that id. -/
lemma processOutputs_mem {α : Type} {len r n : Nat} {id0 : String} :
    ∀ {ids : List String} {Y : List (String × List α)} {ex : ExtraTable α}
      {last : Option (List α)} {Y' ex' last'} {ys : List α},
      processOutputs len r n ids Y ex last = some (Y', ex', last') →
      ids.Nodup → id0 ∈ ids → lookupT Y id0 = some ys →
      ∃ groups kept, reshapeYfull ys len r = some groups ∧
        reshapeYkept ys len r n = some kept ∧
        lookupT Y' id0 = some kept ∧ lookupT ex' id0 = some groups := by
  intro ids
  induction ids with
  | nil => intro Y ex last Y' ex' last' ys _ _ hmem _; simp at hmem
  | cons a rest ih =>
      intro Y ex last Y' ex' last' ys h hnd hmem hys
      obtain ⟨ys0, groups, kept, hys0, hg, hk, hrec⟩ := processOutputs_cons_some h
      rcases List.mem_cons.mp hmem with rfl | hmem2
      · have hys' : ys0 = ys := by rw [hys0] at hys; exact Option.some.inj hys
        subst hys'
        have hrest : id0 ∉ rest := (List.nodup_cons.mp hnd).1
        obtain ⟨h1, h2⟩ := processOutputs_frame hrec hrest
        refine ⟨groups, kept, hg, hk, ?_, ?_⟩
        · rw [h1, lookupT_setT_self]
        · rw [h2, lookupT_setT_self]
      · have hne : a ≠ id0 := by
          rintro rfl; exact (List.nodup_cons.mp hnd).1 hmem2
        have hys2 : lookupT (setT Y a kept) id0 = some ys := by
          rw [lookupT_setT_ne _ _ _ _ hne]; exact hys
        exact ih hrec (List.nodup_cons.mp hnd).2 hmem2 hys2

/-- The final `new_Y` carried out of the output loop is either the
incoming one or a kept list produced by `reshapeYkept` on some list. -/
lemma processOutputs_last {α : Type} {len r n : Nat} :
    ∀ {ids : List String} {Y : List (String × List α)} {ex : ExtraTable α}
      {last : Option (List α)} {Y' ex' last'},
      processOutputs len r n ids Y ex last = some (Y', ex', last') →
      last' = last ∨ ∃ ys kept, last' = some kept ∧ reshapeYkept ys len r n = some kept := by
  intro ids
  induction ids with
  | nil => intro Y ex last Y' ex' last' h; simp [processOutputs] at h; simp [h]
  | cons a rest ih =>
      intro Y ex last Y' ex' last' h
      obtain ⟨ys, groups, kept, hys, hg, hk, hrec⟩ := processOutputs_cons_some h
      rcases ih hrec with heq | hex
      · exact Or.inr ⟨ys, kept, heq, hk⟩
      · exact Or.inr hex

/-- An input id whose reshape fails on its pre-loop value is left
unchanged by the input loop whenever the loop finishes (for an optional
id the failure is swallowed; a failing non-optional id would abort the
loop instead). -/
lemma processInputs_fail_unchanged {α : Type} {oi : List String} {len r n : Nat}
    {id0 : String} :
    ∀ {ids : List String} {X X' : List (String × List α)},
      processInputs oi len r n ids X = some X' →
      (lookupT X id0).bind (fun xs => reshapeX xs len r n) = none →
      lookupT X' id0 = lookupT X id0 := by
  intro ids
  induction ids with
  | nil => intro X X' h _; simp [processInputs] at h; simp [h]
  | cons a rest ih =>
      intro X X' h hfail
      by_cases hne : a = id0
      · subst hne
        by_cases hopt : a ∈ oi
        · simp [processInputs, hfail, hopt] at h
          exact ih h hfail
        · simp [processInputs, hfail, hopt] at h
      · cases hstep : (lookupT X a).bind (fun xs => reshapeX xs len r n) with
        | some nx =>
            simp [processInputs, hstep] at h
            have hl : lookupT (setT X a nx) id0 = lookupT X id0 :=
              lookupT_setT_ne _ _ _ _ hne
            rw [ih h (by rw [hl]; exact hfail), hl]
        | none =>
            by_cases hopt : a ∈ oi
            · simp [processInputs, hstep, hopt] at h
              exact ih h hfail
            · simp [processInputs, hstep, hopt] at h

/-- A non-optional input id whose reshape fails makes the whole input
loop fail (the exception propagates out of `keep_n_captions`). -/
lemma processInputs_fail_abort {α : Type} {oi : List String} {len r n : Nat}
    {id0 : String} :
    ∀ {ids : List String} {X : List (String × List α)},
      id0 ∈ ids → id0 ∉ oi →
      (lookupT X id0).bind (fun xs => reshapeX xs len r n) = none →
      processInputs oi len r n ids X = none := by
  intro ids
  induction ids with
  | nil => intro X hmem _ _; simp at hmem
  | cons a rest ih =>
      intro X hmem hopt hfail
      by_cases hne : a = id0
      · subst hne
        simp [processInputs, hfail, hopt]
      · have hmem2 : id0 ∈ rest := by
          rcases List.mem_cons.mp hmem with rfl | h2
          · exact absurd rfl hne
          · exact h2
        cases hstep : (lookupT X a).bind (fun xs => reshapeX xs len r n) with
        | some nx =>
            have hl : lookupT (setT X a nx) id0 = lookupT X id0 :=
              lookupT_setT_ne _ _ _ _ hne
            simp [processInputs, hstep]
            exact ih hmem2 hopt (by rw [hl]; exact hfail)
        | none =>
            by_cases haopt : a ∈ oi
            · simp [processInputs, hstep, haopt]
              exact ih hmem2 hopt hfail
            · simp [processInputs, hstep, haopt]

/-- The input loop leaves ids it never visits untouched. -/
lemma processInputs_frame {α : Type} {oi : List String} {len r n : Nat}
    {id0 : String} :
    ∀ {ids : List String} {X X' : List (String × List α)},
      processInputs oi len r n ids X = some X' →
      id0 ∉ ids → lookupT X' id0 = lookupT X id0 := by
  intro ids
  induction ids with
  | nil => intro X X' h _; simp [processInputs] at h; simp [h]
  | cons a rest ih =>
      intro X X' h hmem
      have hne : a ≠ id0 := fun hc => hmem (hc ▸ List.mem_cons_self a rest)
      have hrest : id0 ∉ rest := fun hc => hmem (List.mem_cons_of_mem a hc)
      cases hstep : (lookupT X a).bind (fun xs => reshapeX xs len r n) with
      | some nx =>
          simp [processInputs, hstep] at h
          rw [ih h hrest, lookupT_setT_ne _ _ _ _ hne]
      | none =>
          by_cases hopt : a ∈ oi
          · simp [processInputs, hstep, hopt] at h
            exact ih h hrest
          · simp [processInputs, hstep, hopt] at h

/-- At each visited input id (ids distinct) whose reshape succeeds on its
pre-loop value, the input loop stores the reshaped list. -/
lemma processInputs_mem {α : Type} {oi : List String} {len r n : Nat}
    {id0 : String} :
    ∀ {ids : List String} {X X' : List (String × List α)} {xs nx : List α},
      processInputs oi len r n ids X = some X' →
      ids.Nodup → id0 ∈ ids → lookupT X id0 = some xs →
      reshapeX xs len r n = some nx →
      lookupT X' id0 = some nx := by
  intro ids
  induction ids with
  | nil => intro X X' xs nx _ _ hmem _ _; simp at hmem
  | cons a rest ih =>
      intro X X' xs nx h hnd hmem hxs hnx
      rcases List.mem_cons.mp hmem with rfl | hmem2
      · have hstep : (lookupT X id0).bind (fun xs => reshapeX xs len r n) = some nx := by
          rw [hxs]; simpa using hnx
        simp [processInputs, hstep] at h
        have hrest : id0 ∉ rest := (List.nodup_cons.mp hnd).1
        rw [processInputs_frame h hrest, lookupT_setT_self]
      · have hne : a ≠ id0 := by
          rintro rfl; exact (List.nodup_cons.mp hnd).1 hmem2
        cases hstep : (lookupT X a).bind (fun ws => reshapeX ws len r n) with
        | some nx2 =>
            simp [processInputs, hstep] at h
            exact ih h (List.nodup_cons.mp hnd).2 hmem2
              (by rw [lookupT_setT_ne _ _ _ _ hne]; exact hxs) hnx
        | none =>
            by_cases hopt : a ∈ oi
            · simp [processInputs, hstep, hopt] at h
              exact ih h (List.nodup_cons.mp hnd).2 hmem2 hxs hnx
            · simp [processInputs, hstep, hopt] at h

/-- Decomposition of a successful `keep_n_captions` call on a single
split. -/
lemma keep_n_captions_single {α : Type} {ds ds' : Dataset α} {r n : Nat} {s : String}
    (h : keep_n_captions ds r n [s] = some ds') :
    ∃ sd sd1 ex, lookupT ds.splits s = some sd ∧
      processSplit ds.ids_inputs ds.optional_inputs ds.ids_outputs r n sd = some (sd1, ex) ∧
      ds' = { ds with splits := setT ds.splits s sd1,
                      extra_variables := setT ds.extra_variables s ex } := by
  cases hsd : lookupT ds.splits s with
  | none => simp [keep_n_captions, hsd] at h
  | some sd =>
      cases hps : processSplit ds.ids_inputs ds.optional_inputs ds.ids_outputs r n sd with
      | none => simp [keep_n_captions, hsd, hps] at h
      | some p =>
          obtain ⟨sd1, ex⟩ := p
          refine ⟨sd, sd1, ex, rfl, hps, ?_⟩
          simp [keep_n_captions, hsd, hps] at h
          exact h.symm

/-- Decomposition of a successful `processSplit`. -/
lemma processSplit_some {α : Type} {ii oi io : List String} {r n : Nat}
    {sd sd1 : SplitData α} {ex : ExtraTable α}
    (h : processSplit ii oi io r n sd = some (sd1, ex)) :
    ∃ X1 Y1 kept, processInputs oi sd.len r n ii sd.X = some X1 ∧
      processOutputs sd.len r n io sd.Y [] none = some (Y1, ex, some kept) ∧
      sd1 = { len := kept.length, X := X1, Y := Y1 } := by
  cases hin : processInputs oi sd.len r n ii sd.X with
  | none => simp [processSplit, hin] at h
  | some X1 =>
      cases hout : processOutputs sd.len r n io sd.Y [] none with
      | none => simp [processSplit, hin, hout] at h
      | some q =>
          obtain ⟨Y1, ex1, last⟩ := q
          cases last with
          | none => simp [processSplit, hin, hout] at h
          | some kept =>
              simp [processSplit, hin, hout] at h
              exact ⟨X1, Y1, kept, rfl, by rw [h.2], h.1.symm⟩

/-- Claim C1: for a dataset `ds`, repeat `r ≥ 1`, `n ≤ r`, and a split
`s` whose sample count is a positive multiple of `r`, after a successful
`keep_n_captions(ds, repeat=r, n=n, set_names=[s])` the kept output list
of each output id has length `n * (len_s / r)`, and its entries are the
first `n` of each consecutive group of `r` of the pre-call list: the
kept entry at position `k*n + j` (for `j < n`) is the pre-call entry at
position `k*r + j`. -/
theorem keep_n_captions_kept_count {α : Type} (ds ds' : Dataset α) (r n : Nat)
    (s id_out : String) (sd : SplitData α) (ys : List α)
    (hcall : keep_n_captions ds r n [s] = some ds')
    (hsd : lookupT ds.splits s = some sd)
    (hr : 1 ≤ r) (hn : n ≤ r) (hdvd : r ∣ sd.len) (hpos : 0 < sd.len)
    (hout : id_out ∈ ds.ids_outputs) (hnd : ds.ids_outputs.Nodup)
    (hys : lookupT sd.Y id_out = some ys) :
    ∃ sd' kept, lookupT ds'.splits s = some sd' ∧ lookupT sd'.Y id_out = some kept ∧
      kept.length = n * (sd.len / r) ∧
      ∀ k j, k < sd.len / r → j < n → kept[k * n + j]? = ys[k * r + j]? := by
  obtain ⟨sd0, sd1, ex, hsd0, hps, rfl⟩ := keep_n_captions_single hcall
  rw [hsd] at hsd0
  obtain rfl : sd = sd0 := Option.some.inj hsd0
  obtain ⟨X1, Y1, keptL, hin, hpo, rfl⟩ := processSplit_some hps
  obtain ⟨groups, kept, hg, hk, hY1, hex⟩ := processOutputs_mem hpo hnd hout hys
  obtain ⟨hlen, helem⟩ := reshapeYkept_some_spec hr hdvd hn hk
  refine ⟨{ len := keptL.length, X := X1, Y := Y1 }, kept, ?_, hY1, hlen, helem⟩
  exact lookupT_setT_self _ _ _

/-- Claim C2: under the same conditions, the side mapping
`ds.extra_variables[s][id_out]` maps each sample index `k` to exactly
the `r` original entries of group `k` of the pre-call output list. -/
theorem keep_n_captions_extra_groups {α : Type} (ds ds' : Dataset α) (r n : Nat)
    (s id_out : String) (sd : SplitData α) (ys : List α)
    (hcall : keep_n_captions ds r n [s] = some ds')
    (hsd : lookupT ds.splits s = some sd)
    (hr : 1 ≤ r) (hn : n ≤ r) (hdvd : r ∣ sd.len) (hpos : 0 < sd.len)
    (hout : id_out ∈ ds.ids_outputs) (hnd : ds.ids_outputs.Nodup)
    (hys : lookupT sd.Y id_out = some ys) :
    ∃ ex groups, lookupT ds'.extra_variables s = some ex ∧
      lookupT ex id_out = some groups ∧ groups.length = sd.len / r ∧
      ∀ k, k < sd.len / r → ∃ gk, groups[k]? = some gk ∧ gk.length = r ∧
        ∀ j, j < r → gk[j]? = ys[k * r + j]? := by
  obtain ⟨sd0, sd1, ex, hsd0, hps, rfl⟩ := keep_n_captions_single hcall
  rw [hsd] at hsd0
  obtain rfl : sd = sd0 := Option.some.inj hsd0
  obtain ⟨X1, Y1, keptL, hin, hpo, rfl⟩ := processSplit_some hps
  obtain ⟨groups, kept, hg, hk, hY1, hex⟩ := processOutputs_mem hpo hnd hout hys
  obtain ⟨hglen, hgelem⟩ := reshapeYfull_some_spec hr hdvd hg
  exact ⟨ex, groups, by simp [lookupT_setT_self], hex, hglen, hgelem⟩

/-- Claim C3: on the output list `[a1,a2,a3,b1,b2,b3]` with repeat 3 and
n 1, `keep_n_captions` keeps `[a1,b1]` and stores the side mapping
`{0: [a1,a2,a3], 1: [b1,b2,b3]}` (key order 0, 1). -/
theorem keep_n_captions_example :
    keep_n_captions dsExample 3 1 ["val"] =
      some { ids_inputs := [], optional_inputs := [], ids_outputs := ["target_text"],
             splits := [("val", { len := 2, X := [],
                                  Y := [("target_text", ["a1", "b1"])] })],
             extra_variables :=
               [("val", [("target_text", [["a1", "a2", "a3"], ["b1", "b2", "b3"]])])] } := by
  rfl

/-- Claim C10: after a successful single-split `keep_n_captions` call on
a positive multiple of the repeat factor, the new split length equals
`n * (old length / r)`, and it coincides with the length of every kept
output list and of every kept (successfully reshaped) input list. -/
theorem keep_n_captions_len_consistent {α : Type} (ds ds' : Dataset α) (r n : Nat)
    (s : String) (sd : SplitData α)
    (hcall : keep_n_captions ds r n [s] = some ds')
    (hsd : lookupT ds.splits s = some sd)
    (hr : 1 ≤ r) (hn : n ≤ r) (hdvd : r ∣ sd.len) (hpos : 0 < sd.len)
    (hone : ds.ids_outputs ≠ [])
    (hndo : ds.ids_outputs.Nodup) (hndi : ds.ids_inputs.Nodup) :
    ∃ sd', lookupT ds'.splits s = some sd' ∧ sd'.len = n * (sd.len / r) ∧
      (∀ id_out ∈ ds.ids_outputs, ∀ ys, lookupT sd.Y id_out = some ys →
        ∃ kept, lookupT sd'.Y id_out = some kept ∧ kept.length = sd'.len) ∧
      (∀ id_in ∈ ds.ids_inputs, ∀ xs nx, lookupT sd.X id_in = some xs →
        reshapeX xs sd.len r n = some nx →
        lookupT sd'.X id_in = some nx ∧ nx.length = sd'.len) := by
  obtain ⟨sd0, sd1, ex, hsd0, hps, rfl⟩ := keep_n_captions_single hcall
  rw [hsd] at hsd0
  obtain rfl : sd = sd0 := Option.some.inj hsd0
  obtain ⟨X1, Y1, keptL, hin, hpo, rfl⟩ := processSplit_some hps
  have hlenL : keptL.length = n * (sd.len / r) := by
    rcases processOutputs_last hpo with heq | ⟨ys, kept, heq, hk⟩
    · exact absurd heq (by simp)
    · obtain rfl : keptL = kept := Option.some.inj heq
      exact (reshapeYkept_some_spec hr hdvd hn hk).1
  refine ⟨{ len := keptL.length, X := X1, Y := Y1 }, lookupT_setT_self _ _ _,
    hlenL, ?_, ?_⟩
  · intro id_out hmem ys hys
    obtain ⟨groups, kept, hg, hk, hY1, hex⟩ := processOutputs_mem hpo hndo hmem hys
    exact ⟨kept, hY1, by rw [(reshapeYkept_some_spec hr hdvd hn hk).1, hlenL]⟩
  · intro id_in hmem xs nx hxs hnx
    refine ⟨processInputs_mem hin hndi hmem hxs hnx, ?_⟩
    rw [reshapeX_some_length hr hdvd hnx, hlenL]

/-- Claim C9: inside `keep_n_captions`, an input id in
`ds.optional_inputs` whose reshape raises (missing id or too-short list)
is silently skipped: whenever the call succeeds, that id's entry in the
split's input table is unchanged; a non-optional input id with the same
failure makes the whole call raise. -/
theorem keep_n_captions_optional_input_skip {α : Type} (ds : Dataset α) (r n : Nat)
    (s id_in : String) (sd : SplitData α)
    (hsd : lookupT ds.splits s = some sd)
    (hfail : (lookupT sd.X id_in).bind (fun xs => reshapeX xs sd.len r n) = none) :
    (id_in ∈ ds.optional_inputs →
      ∀ ds' sd', keep_n_captions ds r n [s] = some ds' →
        lookupT ds'.splits s = some sd' →
        lookupT sd'.X id_in = lookupT sd.X id_in) ∧
    (id_in ∉ ds.optional_inputs → id_in ∈ ds.ids_inputs →
      keep_n_captions ds r n [s] = none) := by
  constructor
  · intro _ ds' sd' hcall hsd'
    obtain ⟨sd0, sd1, ex, hsd0, hps, rfl⟩ := keep_n_captions_single hcall
    rw [hsd] at hsd0
    obtain rfl : sd = sd0 := Option.some.inj hsd0
    obtain ⟨X1, Y1, keptL, hin, hpo, rfl⟩ := processSplit_some hps
    have : lookupT (setT ds.splits s { len := keptL.length, X := X1, Y := Y1 }) s =
        some { len := keptL.length, X := X1, Y := Y1 } := lookupT_setT_self _ _ _
    rw [this] at hsd'
    obtain rfl : sd' = { len := keptL.length, X := X1, Y := Y1 } :=
      (Option.some.inj hsd').symm
    exact processInputs_fail_unchanged hin hfail
  · intro hopt hmem
    have habort : processInputs ds.optional_inputs sd.len r n ds.ids_inputs sd.X = none :=
      processInputs_fail_abort hmem hopt hfail
    simp [keep_n_captions, hsd, processSplit, habort]

/-!
Embedding of `main.py`: `check_params` (lines 301-316) and the
`__main__` command-line override loop (lines 331-358).
-/

/-- Python `str.split(sep)` for a one-character separator, on the
character list: splitting the empty string gives `[[]]`, and every
separator occurrence opens a new chunk. -/
def splitOnChar (c : Char) : List Char → List (List Char)
  | [] => [[]]
  | a :: rest =>
      match splitOnChar c rest with
      | [] => if a = c then [[], []] else [[a]]
      | g :: gs => if a = c then [] :: g :: gs else (a :: g) :: gs

/-- Python `arg.split('=')` as used by the `__main__` override loop
(`main.py` line 340). -/
def pySplitEq (s : String) : List String :=
  (splitOnChar '=' s.toList).map (fun cs => String.mk cs)

/-- The result of `ast.literal_eval(v)` with the bare-except fallback to
the raw string (`main.py` lines 345-348).  `literal_eval` itself is
Python library code, abstracted as a partial evaluator `litEval`
(`none` models any exception). -/
inductive OvVal (V : Type) where
  | lit : V → OvVal V
  | raw : String → OvVal V
deriving Repr, DecidableEq

/-- `parameters[k] = ast.literal_eval(v)`, falling back to
`parameters[k] = v` when literal evaluation raises. -/
def ovalOf {V : Type} (litEval : String → Option V) (v : String) : OvVal V :=
  match litEval v with
  | some x => OvVal.lit x
  | none => OvVal.raw v

/-- One iteration of the override loop (`main.py` lines 339-348):
unpack `k, v = arg.split('=')` (a `ValueError` when the split does not
give exactly two parts is answered by a printed message and `exit(1)`,
modelled as `Except.error 1`), then store the evaluated value. -/
def applyOne {V : Type} (litEval : String → Option V)
    (params : List (String × OvVal V)) (arg : String) :
    Except Nat (List (String × OvVal V)) :=
  match pySplitEq arg with
  | [k, v] => Except.ok (setT params k (ovalOf litEval v))
  | _ => Except.error 1

/-- The full override loop `for arg in args.changes` (`main.py` lines
339-348), processing the arguments in order and stopping at the first
malformed one with exit status 1. -/
def applyChanges {V : Type} (litEval : String → Option V)
    (params : List (String × OvVal V)) (changes : List String) :
    Except Nat (List (String × OvVal V)) :=
  match changes with
  | [] => Except.ok params
  | arg :: rest =>
      match applyOne litEval params arg with
      | Except.ok p2 => applyChanges litEval p2 rest
      | Except.error c => Except.error c

/-- The action taken by `__main__` after the overrides: run training,
run sampling, or nothing (`main.py` lines 353-358). -/
inductive MainAct where
  | training
  | sampling
  | nothing
deriving Repr, DecidableEq

/-- The `__main__` tail: the override loop followed by the rest of the
entry point (checks and the `MODE` dispatch, abstracted as `mode`); an
`exit` during override processing aborts before any of it runs. -/
def runMain {V : Type} (litEval : String → Option V)
    (params : List (String × OvVal V)) (changes : List String)
    (mode : List (String × OvVal V) → MainAct) : Except Nat MainAct :=
  match applyChanges litEval params changes with
  | Except.ok p => Except.ok (mode p)
  | Except.error c => Except.error c

/-- The single-argument update applied by the loop to the parameter
dictionary (its catch-all branch is unreachable for well-formed
arguments). -/
def applyStep {V : Type} (litEval : String → Option V)
    (q : List (String × OvVal V)) (a : String) : List (String × OvVal V) :=
  match pySplitEq a with
  | [k, v] => setT q k (ovalOf litEval v)
  | _ => q

/-- Case analysis of one override step: a well-formed `Key=Value`
argument updates its key, anything else exits with status 1. -/
lemma applyOne_shape {V : Type} (litEval : String → Option V)
    (params : List (String × OvVal V)) (a : String) :
    (∃ k v, pySplitEq a = [k, v] ∧
      applyOne litEval params a = Except.ok (setT params k (ovalOf litEval v))) ∨
    ((∀ k v, pySplitEq a ≠ [k, v]) ∧ applyOne litEval params a = Except.error 1) := by
  cases hsp : pySplitEq a with
  | nil => exact Or.inr ⟨fun k v h => by simp [hsp] at h, by simp [applyOne, hsp]⟩
  | cons k t =>
      cases t with
      | nil => exact Or.inr ⟨fun k' v' h => by simp [hsp] at h, by simp [applyOne, hsp]⟩
      | cons v t2 =>
          cases t2 with
          | nil => exact Or.inl ⟨k, v, rfl, by simp [applyOne, hsp]⟩
          | cons w t3 =>
              exact Or.inr ⟨fun k' v' h => by simp [hsp] at h, by simp [applyOne, hsp]⟩

/-- Claim C4: when every override argument is of the form `Key=Value`
(exactly one `=`), the loop succeeds and equals the left fold of the
single-key updates in argument order; each step stores the literal
evaluation of the value (falling back to the raw string) under its key
and leaves every other key unchanged. -/
theorem applyChanges_wellformed {V : Type} (litEval : String → Option V)
    (params : List (String × OvVal V)) (changes : List String)
    (h : ∀ a ∈ changes, ∃ k v, pySplitEq a = [k, v]) :
    applyChanges litEval params changes =
      Except.ok (changes.foldl (applyStep litEval) params) ∧
    (∀ (q : List (String × OvVal V)) (a k v : String), pySplitEq a = [k, v] →
      applyStep litEval q a = setT q k (ovalOf litEval v) ∧
      lookupT (applyStep litEval q a) k = some (ovalOf litEval v) ∧
      ∀ key, key ≠ k → lookupT (applyStep litEval q a) key = lookupT q key) ∧
    (∀ v x, litEval v = some x → ovalOf litEval v = OvVal.lit x) ∧
    (∀ v, litEval v = none → ovalOf litEval v = OvVal.raw v) := by
  refine ⟨?_, ?_, ?_, ?_⟩
  · induction changes generalizing params with
    | nil => simp [applyChanges]
    | cons a rest ih =>
        obtain ⟨k, v, hkv⟩ := h a (List.mem_cons_self a rest)
        have hstep : applyStep litEval params a = setT params k (ovalOf litEval v) := by
          simp [applyStep, hkv]
        simp only [applyChanges, applyOne, hkv, List.foldl_cons, hstep]
        exact ih (setT params k (ovalOf litEval v))
          (fun b hb => h b (List.mem_cons_of_mem a hb))
  · intro q a k v hkv
    have hstep : applyStep litEval q a = setT q k (ovalOf litEval v) := by
      simp [applyStep, hkv]
    refine ⟨hstep, ?_, ?_⟩
    · rw [hstep]; exact lookupT_setT_self _ _ _
    · intro key hne
      rw [hstep]; exact lookupT_setT_ne _ _ _ _ (Ne.symm hne)
  · intro v x hx; simp [ovalOf, hx]
  · intro v hx; simp [ovalOf, hx]

/-- Claim C5: when some override argument is not of the form
`Key=Value`, the override loop aborts with exit status 1 (non-zero) and
the rest of the entry point, in particular the training or sampling
dispatch, never runs. -/
theorem applyChanges_malformed {V : Type} (litEval : String → Option V)
    (params : List (String × OvVal V)) (changes : List String)
    (mode : List (String × OvVal V) → MainAct)
    (h : ∃ a ∈ changes, ∀ k v, pySplitEq a ≠ [k, v]) :
    applyChanges litEval params changes = Except.error 1 ∧
    runMain litEval params changes mode = Except.error 1 ∧ (1 : Nat) ≠ 0 := by
  have key : applyChanges litEval params changes = Except.error 1 := by
    induction changes generalizing params with
    | nil => obtain ⟨b, hb, _⟩ := h; simp at hb
    | cons a rest ih =>
        obtain ⟨b, hb, hbad⟩ := h
        rcases applyOne_shape litEval params a with ⟨k, v, hkv, hok⟩ | ⟨_, herr⟩
        · have hbrest : b ∈ rest := by
            rcases List.mem_cons.mp hb with rfl | h2
            · exact absurd hkv (hbad k v)
            · exact h2
          simp only [applyChanges, hok]
          exact ih _ ⟨b, hbrest, hbad⟩
        · simp [applyChanges, herr]
  exact ⟨key, by simp [runMain, key], by omega⟩

/-- The configuration fields read by `check_params` (`main.py` lines
301-316).  The pretrained-vector entries are `None` or a path string
(`none` or `some path`). -/
structure Params where
  POS_UNK : Bool
  OPTIMIZED_SEARCH : Bool
  SRC_PRETRAINED_VECTORS : Option String
  TRG_PRETRAINED_VECTORS : Option String
deriving Repr, DecidableEq

/-- The assertion message of `check_params` (`main.py` lines 308-309). -/
def posUnkAssertMsg : String :=
  "Unknown words replacement requires to use the optimized search"

/-- The warning message of `check_params` (`main.py` lines 311-316). -/
def npyWarnMsg : String :=
  "It seems that the pretrained word vectors provided for the target text are not in npy format"

/-- The Python condition
`params[key] and params[key][:-1] != '.npy'` guarding each warning in
`check_params` (`main.py` lines 310 and 314): truthy value (not `None`,
not the empty string) whose slice `[:-1]` (all characters but the last)
differs from the string `.npy`. -/
def pretrainedVectorsSuspect (v : Option String) : Bool :=
  match v with
  | none => false
  | some s => if s = "" then false else decide (String.mk s.toList.dropLast ≠ ".npy")

/-- `check_params(params)` from `main.py` lines 301-316: a failed
assertion is `Except.error` with its message, otherwise the list of
warnings emitted by `warnings.warn` is returned. -/
def check_params (p : Params) : Except String (List String) :=
  if p.POS_UNK && !p.OPTIMIZED_SEARCH then Except.error posUnkAssertMsg
  else
    Except.ok
      ((if pretrainedVectorsSuspect p.SRC_PRETRAINED_VECTORS then [npyWarnMsg] else []) ++
       (if pretrainedVectorsSuspect p.TRG_PRETRAINED_VECTORS then [npyWarnMsg] else []))

/-- Claim C6: `check_params` raises an assertion failure exactly when
`POS_UNK` is truthy and `OPTIMIZED_SEARCH` is falsy; otherwise it
returns normally (with its warnings). -/
theorem check_params_assert_iff (p : Params) :
    (∃ msg, check_params p = Except.error msg) ↔
      (p.POS_UNK = true ∧ p.OPTIMIZED_SEARCH = false) := by
  cases hp : p.POS_UNK <;> cases ho : p.OPTIMIZED_SEARCH <;>
    simp [check_params, hp, ho]

/-- Parameters whose source-side pretrained-vector path ends in
`.npy`. -/
def paramsNpyPath : Params :=
  { POS_UNK := false, OPTIMIZED_SEARCH := true,
    SRC_PRETRAINED_VECTORS := some "vectors.npy",
    TRG_PRETRAINED_VECTORS := none }

/-- Parameters whose source-side pretrained-vector path does not end in
`.npy` (it ends in `X`). -/
def paramsNotNpyPath : Params :=
  { POS_UNK := false, OPTIMIZED_SEARCH := true,
    SRC_PRETRAINED_VECTORS := some ".npyX",
    TRG_PRETRAINED_VECTORS := none }

/-- Claim C7 fails on the code: the guard compares the path with its
last character removed (`[:-1]`) against `.npy` instead of testing the
suffix, so `check_params` warns on the well-formed path `vectors.npy`
(which ends in `.npy`) and stays silent on `.npyX` (which does not). -/
theorem check_params_npy_guard_bug :
    List.isSuffixOf ".npy".toList "vectors.npy".toList = true ∧
    check_params paramsNpyPath = Except.ok [npyWarnMsg] ∧
    List.isSuffixOf ".npy".toList ".npyX".toList = false ∧
    check_params paramsNotNpyPath = Except.ok [] := by
  refine ⟨by decide, by rfl, by decide, by rfl⟩

/-!
Event-level embedding of `build_dataset` (`data_engine/prepare_data.py`
lines 122-262).  The wrapper calls (`Dataset(...)`, `saveDataset`,
`loadDataset`) and the `keep_n_captions` call are external effects of
the function; its control flow is modelled as the ordered list of these
events.  The per-split `setInput`/`setOutput`/`setRawInput`/
`setRawOutput`/`loadMapping` calls between construction and the final
steps only populate the in-memory dataset and are not persistence
events, so they are elided. -/

/-- The externally visible events of `build_dataset`. -/
inductive BdEvent where
  | newDataset (name : String)
  | keepNCaptionsCall (rep n : Nat) (sets : List String)
  | saveDatasetCall (path : String)
  | loadDatasetCall (path : String)
  | returnDs
deriving Repr, DecidableEq

/-- The configuration fields of `build_dataset` that feed the modelled
events. -/
structure BuildParams where
  REBUILD_DATASET : Bool
  TASK_NAME : String
  SRC_LAN : String
  TRG_LAN : String
  DATASET_STORE_PATH : String
  DATASET_NAME : String
  EVAL_ON_SETS : List String
deriving Repr, DecidableEq

/-- `build_dataset(params)` as its event trace: with
`REBUILD_DATASET` truthy it constructs a new `Dataset`, applies
`keep_n_captions(ds, repeat=1, n=1, set_names=params['EVAL_ON_SETS'])`
and saves via `saveDataset(ds, params['DATASET_STORE_PATH'])` before
returning; otherwise it loads the pickled dataset and applies the same
`keep_n_captions` call before returning. -/
def build_dataset (p : BuildParams) : List BdEvent :=
  if p.REBUILD_DATASET then
    [BdEvent.newDataset (p.TASK_NAME ++ "_" ++ p.SRC_LAN ++ p.TRG_LAN),
     BdEvent.keepNCaptionsCall 1 1 p.EVAL_ON_SETS,
     BdEvent.saveDatasetCall p.DATASET_STORE_PATH,
     BdEvent.returnDs]
  else
    [BdEvent.loadDatasetCall
       (p.DATASET_STORE_PATH ++ "/Dataset_" ++ p.DATASET_NAME ++ "_" ++
        p.SRC_LAN ++ p.TRG_LAN ++ ".pkl"),
     BdEvent.keepNCaptionsCall 1 1 p.EVAL_ON_SETS,
     BdEvent.returnDs]

/-- Event `e1` happens strictly before event `e2` in the trace. -/
def eventBefore (tr : List BdEvent) (e1 e2 : BdEvent) : Prop :=
  ∃ (i j : Nat), i < j ∧ tr[i]? = some e1 ∧ tr[j]? = some e2

/-- Claim C8: with `REBUILD_DATASET` truthy, `build_dataset` constructs
a new dataset and serializes it via `saveDataset` at
`DATASET_STORE_PATH` before returning (and never loads); with it falsy,
it deserializes via `loadDataset` instead (and never saves); in both
branches `keep_n_captions` with repeat 1 and n 1 on `EVAL_ON_SETS` runs
before the dataset is returned. -/
theorem build_dataset_persistence (p : BuildParams) :
    (p.REBUILD_DATASET = true →
      eventBefore (build_dataset p)
        (BdEvent.newDataset (p.TASK_NAME ++ "_" ++ p.SRC_LAN ++ p.TRG_LAN))
        (BdEvent.saveDatasetCall p.DATASET_STORE_PATH) ∧
      eventBefore (build_dataset p)
        (BdEvent.saveDatasetCall p.DATASET_STORE_PATH) BdEvent.returnDs ∧
      eventBefore (build_dataset p)
        (BdEvent.keepNCaptionsCall 1 1 p.EVAL_ON_SETS) BdEvent.returnDs ∧
      ∀ q, BdEvent.loadDatasetCall q ∉ build_dataset p) ∧
    (p.REBUILD_DATASET = false →
      eventBefore (build_dataset p)
        (BdEvent.loadDatasetCall
          (p.DATASET_STORE_PATH ++ "/Dataset_" ++ p.DATASET_NAME ++ "_" ++
           p.SRC_LAN ++ p.TRG_LAN ++ ".pkl")) BdEvent.returnDs ∧
      eventBefore (build_dataset p)
        (BdEvent.keepNCaptionsCall 1 1 p.EVAL_ON_SETS) BdEvent.returnDs ∧
      ∀ q, BdEvent.saveDatasetCall q ∉ build_dataset p) := by
  cases hb : p.REBUILD_DATASET
  · refine ⟨fun hc => by simp [hb] at hc, fun _ => ⟨?_, ?_, ?_⟩⟩
    · exact ⟨0, 2, by omega, by simp [build_dataset, hb], by simp [build_dataset, hb]⟩
    · exact ⟨1, 2, by omega, by simp [build_dataset, hb], by simp [build_dataset, hb]⟩
    · intro q; simp [build_dataset, hb]
  · refine ⟨fun _ => ⟨?_, ?_, ?_, ?_⟩, fun hc => by simp [hb] at hc⟩
    · exact ⟨0, 2, by omega, by simp [build_dataset, hb], by simp [build_dataset, hb]⟩
    · exact ⟨2, 3, by omega, by simp [build_dataset, hb], by simp [build_dataset, hb]⟩
    · exact ⟨1, 3, by omega, by simp [build_dataset, hb], by simp [build_dataset, hb]⟩
    · intro q; simp [build_dataset, hb]

/-!
Concrete instances exercising each theorem above.
-/

/-- A concrete `val` split: six samples, one input id present, the
optional input id absent from the input table. -/
def sdW : SplitData String :=
  { len := 6,
    X := [("source_text", ["s1", "s2", "s3", "s4", "s5", "s6"])],
    Y := [("target_text", ["a1", "a2", "a3", "b1", "b2", "b3"])] }

/-- A concrete dataset with an optional input id that is missing from
the split's input table. -/
def dsW : Dataset String :=
  { ids_inputs := ["source_text", "extra_in"]
    optional_inputs := ["extra_in"]
    ids_outputs := ["target_text"]
    splits := [("val", sdW)]
    extra_variables := [] }

/-- The result of `keep_n_captions dsW 3 2` on the `val` split. -/
def dsWres : Dataset String :=
  { ids_inputs := ["source_text", "extra_in"]
    optional_inputs := ["extra_in"]
    ids_outputs := ["target_text"]
    splits := [("val", { len := 4,
                         X := [("source_text", ["s1", "s2", "s4", "s5"])],
                         Y := [("target_text", ["a1", "a2", "b1", "b2"])] })]
    extra_variables := [("val", [("target_text", [["a1", "a2", "a3"], ["b1", "b2", "b3"]])])] }

/-- The same dataset with no optional inputs, so the missing input id
aborts the call. -/
def dsW2 : Dataset String :=
  { dsW with optional_inputs := [] }

/-- Instance of the C1 theorem at `dsW` with repeat 3 and n 2. -/
theorem keep_n_captions_kept_count_witness :
    ∃ sd' kept, lookupT dsWres.splits "val" = some sd' ∧
      lookupT sd'.Y "target_text" = some kept ∧
      kept.length = 2 * (sdW.len / 3) ∧
      ∀ k j, k < sdW.len / 3 → j < 2 →
        kept[k * 2 + j]? = (["a1", "a2", "a3", "b1", "b2", "b3"] : List String)[k * 3 + j]? :=
  keep_n_captions_kept_count dsW dsWres 3 2 "val" "target_text" sdW
    ["a1", "a2", "a3", "b1", "b2", "b3"]
    (by rfl) (by rfl) (by decide) (by decide) (by decide) (by decide)
    (by decide) (by decide) (by rfl)

/-- Instance of the C2 theorem at `dsW` with repeat 3 and n 2. -/
theorem keep_n_captions_extra_groups_witness :
    ∃ ex groups, lookupT dsWres.extra_variables "val" = some ex ∧
      lookupT ex "target_text" = some groups ∧ groups.length = sdW.len / 3 ∧
      ∀ k, k < sdW.len / 3 → ∃ gk, groups[k]? = some gk ∧ gk.length = 3 ∧
        ∀ j, j < 3 →
          gk[j]? = (["a1", "a2", "a3", "b1", "b2", "b3"] : List String)[k * 3 + j]? :=
  keep_n_captions_extra_groups dsW dsWres 3 2 "val" "target_text" sdW
    ["a1", "a2", "a3", "b1", "b2", "b3"]
    (by rfl) (by rfl) (by decide) (by decide) (by decide) (by decide)
    (by decide) (by decide) (by rfl)

/-- Instance of the C10 theorem at `dsW` with repeat 3 and n 2. -/
theorem keep_n_captions_len_consistent_witness :
    ∃ sd', lookupT dsWres.splits "val" = some sd' ∧ sd'.len = 2 * (sdW.len / 3) ∧
      (∀ id_out ∈ dsW.ids_outputs, ∀ ys, lookupT sdW.Y id_out = some ys →
        ∃ kept, lookupT sd'.Y id_out = some kept ∧ kept.length = sd'.len) ∧
      (∀ id_in ∈ dsW.ids_inputs, ∀ xs nx, lookupT sdW.X id_in = some xs →
        reshapeX xs sdW.len 3 2 = some nx →
        lookupT sd'.X id_in = some nx ∧ nx.length = sd'.len) :=
  keep_n_captions_len_consistent dsW dsWres 3 2 "val" sdW
    (by rfl) (by rfl) (by decide) (by decide) (by decide) (by decide)
    (by decide) (by decide) (by decide)

/-- Instance of the C9 theorem: the missing optional id `extra_in` is
left unchanged by a successful call on `dsW`, and the same missing id
aborts the call on `dsW2`, where it is not optional. -/
theorem keep_n_captions_optional_input_skip_witness :
    (∀ ds' sd', keep_n_captions dsW 3 2 ["val"] = some ds' →
      lookupT ds'.splits "val" = some sd' →
      lookupT sd'.X "extra_in" = lookupT sdW.X "extra_in") ∧
    keep_n_captions dsW2 3 2 ["val"] = none :=
  ⟨(keep_n_captions_optional_input_skip dsW 3 2 "val" "extra_in" sdW rfl rfl).1
      (by decide),
   (keep_n_captions_optional_input_skip dsW2 3 2 "val" "extra_in" sdW rfl rfl).2
      (by decide) (by decide)⟩

/-- A concrete literal evaluator for the override-loop instances. -/
def litEvalW : String → Option Nat := fun s => if s = "6" then some 6 else none

/-- Instance of the C4 theorem on two well-formed overrides. -/
theorem applyChanges_wellformed_witness :
    applyChanges litEvalW [] ["BEAM_SIZE=6", "MODE=training"] =
      Except.ok (List.foldl (applyStep litEvalW) [] ["BEAM_SIZE=6", "MODE=training"]) ∧
    lookupT (List.foldl (applyStep litEvalW) [] ["BEAM_SIZE=6", "MODE=training"])
        "BEAM_SIZE" = some (OvVal.lit 6) ∧
    lookupT (List.foldl (applyStep litEvalW) [] ["BEAM_SIZE=6", "MODE=training"])
        "MODE" = some (OvVal.raw "training") :=
  ⟨(applyChanges_wellformed litEvalW [] ["BEAM_SIZE=6", "MODE=training"]
      (by
        intro a ha
        rcases List.mem_cons.mp ha with rfl | ha2
        · exact ⟨"BEAM_SIZE", "6", rfl⟩
        · rcases List.mem_cons.mp ha2 with rfl | ha3
          · exact ⟨"MODE", "training", rfl⟩
          · simp at ha3)).1,
   by rfl, by rfl⟩

/-- Instance of the C5 theorem on a malformed override (no `=`). -/
theorem applyChanges_malformed_witness :
    applyChanges litEvalW [] ["BEAM_SIZE"] = Except.error 1 ∧
    runMain litEvalW [] ["BEAM_SIZE"] (fun _ => MainAct.training) = Except.error 1 ∧
    (1 : Nat) ≠ 0 :=
  applyChanges_malformed litEvalW [] ["BEAM_SIZE"] (fun _ => MainAct.training)
    ⟨"BEAM_SIZE", by simp, by
      intro k v h
      have hsp : pySplitEq "BEAM_SIZE" = ["BEAM_SIZE"] := rfl
      rw [hsp] at h
      simp at h⟩

/-- A configuration with `POS_UNK` set and optimized search disabled. -/
def paramsPosUnk : Params :=
  { POS_UNK := true, OPTIMIZED_SEARCH := false,
    SRC_PRETRAINED_VECTORS := none, TRG_PRETRAINED_VECTORS := none }

/-- Instance of the C6 theorem at `paramsPosUnk`. -/
theorem check_params_assert_iff_witness :
    (∃ msg, check_params paramsPosUnk = Except.error msg) ↔
      (paramsPosUnk.POS_UNK = true ∧ paramsPosUnk.OPTIMIZED_SEARCH = false) :=
  check_params_assert_iff paramsPosUnk

/-- Rebuild-branch configuration for the C8 instance. -/
def bpRebuild : BuildParams :=
  { REBUILD_DATASET := true, TASK_NAME := "ue", SRC_LAN := "en", TRG_LAN := "fr",
    DATASET_STORE_PATH := "datasets", DATASET_NAME := "ue", EVAL_ON_SETS := ["val"] }

/-- Load-branch configuration for the C8 instance. -/
def bpLoad : BuildParams := { bpRebuild with REBUILD_DATASET := false }

/-- Instance of the C8 theorem on both branches. -/
theorem build_dataset_persistence_witness :
    (eventBefore (build_dataset bpRebuild)
        (BdEvent.newDataset ("ue" ++ "_" ++ "en" ++ "fr"))
        (BdEvent.saveDatasetCall "datasets") ∧
      eventBefore (build_dataset bpRebuild)
        (BdEvent.saveDatasetCall "datasets") BdEvent.returnDs ∧
      eventBefore (build_dataset bpRebuild)
        (BdEvent.keepNCaptionsCall 1 1 ["val"]) BdEvent.returnDs ∧
      ∀ q, BdEvent.loadDatasetCall q ∉ build_dataset bpRebuild) ∧
    (∀ q, BdEvent.saveDatasetCall q ∉ build_dataset bpLoad) :=
  ⟨(build_dataset_persistence bpRebuild).1 rfl,
   ((build_dataset_persistence bpLoad).2 rfl).2.2⟩
